import Mathlib

set_option maxHeartbeats 1000000

/-!
A shallow embedding of `src/mdbook-spec/src/grammar/parser.rs`, the
recursive-descent parser of the EBNF-like grammar notation, together with
proofs settling the frozen claims about it.

Modelling conventions:
* the input `&str` becomes a `List Char`, and the byte index becomes a
  character index (all inputs relevant to the claims are ASCII, where the
  two coincide; `char::is_alphanumeric` is modelled by the ASCII
  `Char.isAlphanum`);
* the anchored regexes of the source are hand-translated into equivalent
  anchored character scanners (each one is commented with the regex it
  embeds);
* the recursive-descent loops are driven by an explicit fuel parameter;
  running out of fuel yields the distinguished `fuelError`, an artifact of
  the embedding that no theorem relies on (all concrete runs use ample
  fuel);
* `&mut Grammar` state is made explicit: `parse_grammar` returns the final
  grammar next to the `Result`, so mutations made before a failure remain
  visible, exactly as for the Rust borrow.
-/

namespace Ebnf

/-- Character matcher inside a charset.  Modelled from the spec: the
`Characters` type itself is declared outside `src/` (in the enclosing
grammar module); its three forms are taken from the spec's data model
(`Character-matcher — Range, LiteralTerminal, NamedClass`) and from its
construction sites in `parse_characters`. -/
inductive Characters where
| Range : Char → Char → Characters
| Terminal : String → Characters
| Named : String → Characters
deriving DecidableEq, Repr

mutual
/-- Modelled from the spec: `ExpressionKind` is declared outside `src/`;
its variants and payloads are taken from the spec's data-model table and
from every construction site in `parser.rs` (`Alt`, `Sequence`, `Break`,
`Nt`, `Terminal`, `Charset`, `Prose`, `Grouped`, `NegExpression`,
`Unicode`, `Optional`, `Repeat`, `RepeatNonGreedy`, `RepeatPlus`,
`RepeatPlusNonGreedy`, `RepeatRange`).  `Box<Expression>` becomes a plain
`Expression`. -/
inductive ExpressionKind where
| Grouped : Expression → ExpressionKind
| Alt : List Expression → ExpressionKind
| Sequence : List Expression → ExpressionKind
| Optional : Expression → ExpressionKind
| Repeat : Expression → ExpressionKind
| RepeatNonGreedy : Expression → ExpressionKind
| RepeatPlus : Expression → ExpressionKind
| RepeatPlusNonGreedy : Expression → ExpressionKind
| RepeatRange : Expression → Option Nat → Option Nat → ExpressionKind
| Nt : String → ExpressionKind
| Terminal : String → ExpressionKind
| Prose : String → ExpressionKind
| Break : Nat → ExpressionKind
| Charset : List Characters → ExpressionKind
| NegExpression : Expression → ExpressionKind
| Unicode : String → ExpressionKind

/-- Modelled from the spec: an AST node — a kind plus the optional suffix
annotation and footnote marker (spec data model, and the construction
sites in `parse_expr1`, `parse_expression`, `parse_seq`, `box_kind`). -/
inductive Expression where
| mk : ExpressionKind → Option String → Option String → Expression
end

def Expression.kind : Expression → ExpressionKind
  | .mk k _ _ => k

def Expression.suffix : Expression → Option String
  | .mk _ s _ => s

def Expression.footnote : Expression → Option String
  | .mk _ _ f => f

/-- Modelled from the spec: one named rule; fields are exactly those
assigned in `parse_production` (`path: &Path` becomes a `String`). -/
structure Production where
  name : String
  category : String
  expression : Expression
  path : String
  is_root : Bool

/-- Modelled from the spec: the registry — "an ordered sequence of
production names in first-declared order, and a mapping from name to
Production".  The map is modelled as an association list with the
standard-library insert semantics used by `parse_grammar` (replace the
value, return the previous one). -/
structure Grammar where
  name_order : List String
  productions : List (String × Production)

/-- Lookup in the name-to-Production map. -/
def mapFind : List (String × Production) → String → Option Production
  | [], _ => none
  | (k', v') :: rest, k => if k' = k then some v' else mapFind rest k

/-- `map.insert(k, v)` with the Rust standard-library map semantics used at
`parse_grammar`: stores `v` under `k` and returns the value previously
stored there, if any. -/
def mapInsert : List (String × Production) → String → Production →
    Option Production × List (String × Production)
  | [], k, v => (none, [(k, v)])
  | (k', v') :: rest, k, v =>
    if k' = k then (some v', (k, v) :: rest)
    else
      let r := mapInsert rest k v
      (r.1, (k', v') :: r.2)

/-- The parser state: the immutable input and the current offset
(`struct Parser`). -/
structure Parser where
  input : List Char
  index : Nat
deriving DecidableEq, Repr

/-- `pub struct Error`. -/
structure Error where
  message : String
  line : String
  lineno : Nat
  col : Nat
deriving DecidableEq, Repr

/-- Fuel exhaustion marker of the embedding (never reached with ample
fuel; no theorem depends on its contents). -/
def fuelError : Error :=
  { message := "out of fuel", line := "", lineno := 0, col := 0 }

/-- Stands for a Rust `panic!`/`expect` on a statically unreachable path. -/
def panicError (m : String) : Error :=
  { message := m, line := "", lineno := 0, col := 0 }

/-! ## translate_position -/

/-- Split on `'\n'`; always returns at least one (possibly empty) piece.
Helper for the `str::lines` model. -/
def splitNl : List Char → List (List Char)
  | [] => [[]]
  | c :: rest =>
    if c = '\n' then [] :: splitNl rest
    else
      match splitNl rest with
      | l :: ls => (c :: l) :: ls
      | [] => [[c]]

/-- Strip one trailing `'\r'` (for pieces that were followed by `'\n'`,
mirroring how `str::lines` treats `\r\n` as a terminator). -/
def stripCR (l : List Char) : List Char :=
  if l.getLast? = some '\r' then l.dropLast else l

/-- `str::lines`: split at `\n` or `\r\n`, terminators excluded, final
empty piece (after a trailing terminator) dropped. -/
def rustLines (s : List Char) : List (List Char) :=
  let parts := splitNl s
  let front := parts.dropLast.map stripCR
  match parts.getLast? with
  | some [] => front
  | some l => front ++ [l]
  | none => []

/-- The scanning loop of `translate_position` over `input.lines()`. -/
def tpLoop : List (List Char) → Nat → Nat → Nat → String × Nat × Nat
  | [], _, _, line_number => ("", line_number + 1, 0)
  | line :: rest, index, line_start, line_number =>
    if line_start ≤ index ∧ index ≤ line_start + line.length then
      (String.mk line, line_number + 1, index - line_start + 1)
    else
      tpLoop rest index (line_start + line.length + 1) (line_number + 1)

/-- `fn translate_position`: byte index to `(line, line_no, col_no)`,
1-based. -/
def translate_position (input : List Char) (index : Nat) :
    String × Nat × Nat :=
  if input = [] then ("", 0, 0)
  else tpLoop (rustLines input) (min index input.length) 0 0

/-! ## Scanner primitives -/

/-- Remaining input from the current offset (`&self.input[self.index..]`). -/
def Parser.rest (p : Parser) : List Char :=
  p.input.drop p.index

/-- Advance the offset by `n` characters. -/
def Parser.adv (p : Parser) (n : Nat) : Parser :=
  { p with index := p.index + n }

/-- `fn take_while`: consume the maximal run satisfying `f`, returning it. -/
def take_while (f : Char → Bool) (p : Parser) : List Char × Parser :=
  let s := p.rest.takeWhile f
  (s, p.adv s.length)

/-- `fn take_str`: consume `s` if it is next; report whether it was. -/
def take_str (s : List Char) (p : Parser) : Bool × Parser :=
  if s.isPrefixOf p.rest then (true, p.adv s.length) else (false, p)

/-- `fn peek`: the next unit of input, if any. -/
def Parser.peek (p : Parser) : Option Char :=
  p.rest.head?

/-- `fn eof`. -/
def Parser.eof (p : Parser) : Bool :=
  decide (p.input.length ≤ p.index)

/-- `fn error`: build an `Error` at the current offset. -/
def Parser.mkError (p : Parser) (message : String) : Error :=
  let t := translate_position p.input p.index
  { message := message, line := t.1, lineno := t.2.1, col := t.2.2 }

/-- `fn expect`: require `s` next, else fail with `err`. -/
def expect (s : List Char) (err : String) (p : Parser) :
    Except Error Parser :=
  if s.isPrefixOf p.rest then .ok (p.adv s.length)
  else .error (p.mkError err)

/-- `fn space0`: zero or more spaces. -/
def space0 (p : Parser) : List Char × Parser :=
  take_while (fun ch => ch = ' ') p

/-! ## Anchored lexical matchers (the source's regexes) -/

/-- Regex `^ *\| *` (`ALT_RE`). -/
def altRe (p : Parser) : Option Parser :=
  let sp1 := p.rest.takeWhile (fun c => c = ' ')
  match p.rest.drop sp1.length with
  | c :: r1 =>
    if c = '|' then
      let sp2 := r1.takeWhile (fun c => c = ' ')
      some (p.adv (sp1.length + 1 + sp2.length))
    else none
  | [] => none

/-- The five repetition operators of `REPEAT_RE`'s capture group
`(\*\?|\+\?|\?|\*|\+)`, tried in the regex's left-to-right order. -/
inductive RepOp where
| starNG
| plusNG
| opt
| star
| plus
deriving DecidableEq, Repr

/-- The capture group of `REPEAT_RE`, matched at a given character list:
the regex alternation is leftmost-first, so `*?` is tried before `*` and
`+?` before `+`.  Returns the operator and its width. -/
def repOpAt (l : List Char) : Option (RepOp × Nat) :=
  if ['*', '?'].isPrefixOf l then some (.starNG, 2)
  else if ['+', '?'].isPrefixOf l then some (.plusNG, 2)
  else if ['?'].isPrefixOf l then some (.opt, 1)
  else if ['*'].isPrefixOf l then some (.star, 1)
  else if ['+'].isPrefixOf l then some (.plus, 1)
  else none

/-- Regex `^ ?(\*\?|\+\?|\?|\*|\+)` (`REPEAT_RE`): an optional leading
space (with regex backtracking: the space is only taken when an operator
follows it), then one operator. -/
def repeatRe (p : Parser) : Option (RepOp × Parser) :=
  match p.rest with
  | ' ' :: r1 =>
    match repOpAt r1 with
    | some (op, k) => some (op, p.adv (1 + k))
    | none =>
      match repOpAt p.rest with
      | some (op, k) => some (op, p.adv k)
      | none => none
  | _ =>
    match repOpAt p.rest with
    | some (op, k) => some (op, p.adv k)
    | none => none

/-- Decimal value of a digit run (`str::parse::<u32>` on a `[0-9]+`
capture; widths relevant to the claims stay far below `u32::MAX`). -/
def digitsToNat (l : List Char) : Nat :=
  l.foldl (fun a c => a * 10 + (c.toNat - 48)) 0

/-- Regex `^\{([0-9]+)?\.\.([0-9]+)?\}` (`RANGE_RE`): each bound is an
optional digit run. -/
def rangeRe (p : Parser) : Option (Option Nat × Option Nat × Parser) :=
  match p.rest with
  | '{' :: r1 =>
    let ds1 := r1.takeWhile Char.isDigit
    let r2 := r1.drop ds1.length
    if ['.', '.'].isPrefixOf r2 then
      let r3 := r2.drop 2
      let ds2 := r3.takeWhile Char.isDigit
      match r3.drop ds2.length with
      | '}' :: _ =>
        let a := if ds1.isEmpty then none else some (digitsToNat ds1)
        let b := if ds2.isEmpty then none else some (digitsToNat ds2)
        some (a, b, p.adv (1 + ds1.length + 2 + ds2.length + 1))
      | _ => none
    else none
  | _ => none

/-- Regex `^`X`` where `X` is `([^`\n]+)` (`TERMINAL_RE`): a backtick, a
nonempty run free of backticks and newlines, a closing backtick. -/
def terminalRe (p : Parser) : Option (String × Parser) :=
  match p.rest with
  | '`' :: r1 =>
    let body := r1.takeWhile (fun c => ¬ (c = '`' ∨ c = '\n'))
    if body.isEmpty then none
    else
      match r1.drop body.length with
      | '`' :: _ => some (String.mk body, p.adv (1 + body.length + 1))
      | _ => none
  | _ => none

/-- The charset range regex of `parse_characters`, `^`(.)`-`(.)``: regex
`.` matches any character except a newline. -/
def charRangeRe (p : Parser) : Option (Char × Char × Parser) :=
  match p.rest with
  | '`' :: a :: '`' :: '-' :: '`' :: b :: '`' :: _ =>
    if a = '\n' ∨ b = '\n' then none
    else some (a, b, p.adv 7)
  | _ => none

/-- Regex `^<([^>\n]+)>` (`PROSE_RE`). -/
def proseRe (p : Parser) : Option (String × Parser) :=
  match p.rest with
  | '<' :: r1 =>
    let body := r1.takeWhile (fun c => ¬ (c = '>' ∨ c = '\n'))
    if body.isEmpty then none
    else
      match r1.drop body.length with
      | '>' :: _ => some (String.mk body, p.adv (1 + body.length + 1))
      | _ => none
  | _ => none

/-- Regex `^[A-Z0-9]{4}` (`UNICODE_RE`): exactly four characters, each an
ASCII uppercase letter or digit (a character-class test only). -/
def unicodeRe (p : Parser) : Option (String × Parser) :=
  match p.rest with
  | c1 :: c2 :: c3 :: c4 :: _ =>
    if (c1.isUpper || c1.isDigit) && (c2.isUpper || c2.isDigit) &&
       (c3.isUpper || c3.isDigit) && (c4.isUpper || c4.isDigit) then
      some (String.mk [c1, c2, c3, c4], p.adv 4)
    else none
  | _ => none

/-- Regex `^([^\]\n]+)]` (`FOOTNOTE_RE`). -/
def footnoteRe (p : Parser) : Option (String × Parser) :=
  let body := p.rest.takeWhile (fun c => ¬ (c = ']' ∨ c = '\n'))
  if body.isEmpty then none
  else
    match p.rest.drop body.length with
    | ']' :: _ => some (String.mk body, p.adv (body.length + 1))
    | _ => none

/-! ## Leaf parsers -/

/-- `fn box_kind`: wrap a kind into a fresh expression (no suffix, no
footnote). -/
def box_kind (kind : ExpressionKind) : Expression :=
  .mk kind none none

/-- `fn parse_is_root`. -/
def parse_is_root (p : Parser) : Bool × Parser :=
  take_str "@root".data p

/-- `fn parse_name`: a nonempty run of alphanumerics and underscores. -/
def parse_name (p : Parser) : Option (String × Parser) :=
  let r := take_while (fun c => c.isAlphanum || c = '_') p
  if r.1.isEmpty then none else some (String.mk r.1, r.2)

/-- `fn parse_nonterminal`. -/
def parse_nonterminal (p : Parser) : Option (ExpressionKind × Parser) :=
  match parse_name p with
  | some (nt, p') => some (.Nt nt, p')
  | none => none

/-- `fn parse_terminal`. -/
def parse_terminal (p : Parser) : Except Error (ExpressionKind × Parser) :=
  match terminalRe p with
  | some (s, p') => .ok (.Terminal s, p')
  | none =>
    .error (p.mkError "unterminated terminal, expected closing backtick")

/-- `fn parse_characters`: one charset item. -/
def parse_characters (p : Parser) : Option (Characters × Parser) :=
  match charRangeRe p with
  | some (a, b, p') => some (.Range a b, p')
  | none =>
    match terminalRe p with
    | some (s, p') => some (.Terminal s, p')
    | none =>
      match parse_name p with
      | some (name, p') => some (.Named name, p')
      | none => none

/-- The item loop of `parse_charset`: `space0` then one item, until an
item fails to parse. -/
def charsetItems : Nat → Parser → Except Error (List Characters × Parser)
  | 0, _ => .error fuelError
  | n + 1, p =>
    let p1 := (space0 p).2
    match parse_characters p1 with
    | none => .ok ([], p1)
    | some (ch, p2) =>
      match charsetItems n p2 with
      | .ok (chs, p3) => .ok (ch :: chs, p3)
      | .error e => .error e

/-- `fn parse_charset`. -/
def parse_charset (fuel : Nat) (p : Parser) :
    Except Error (ExpressionKind × Parser) :=
  match expect "[".data "expected opening [" p with
  | .error e => .error e
  | .ok p1 =>
    match charsetItems fuel p1 with
    | .error e => .error e
    | .ok (characters, p2) =>
      if characters.isEmpty then
        .error
          (p2.mkError "expected at least one character in character group")
      else
        let p3 := (space0 p2).2
        match expect "]".data "expected closing ]" p3 with
        | .error e => .error e
        | .ok p4 => .ok (.Charset characters, p4)

/-- `fn parse_prose`. -/
def parse_prose (p : Parser) : Except Error (ExpressionKind × Parser) :=
  match proseRe p with
  | some (s, p') => .ok (.Prose s, p')
  | none => .error (p.mkError "unterminated prose, expected closing `>`")

/-- `fn parse_neg_expression`. -/
def parse_neg_expression (fuel : Nat) (p : Parser) :
    Except Error (ExpressionKind × Parser) :=
  match expect "~".data "expected ~" p with
  | .error e => .error e
  | .ok p1 =>
    match p1.peek with
    | none => .error (p1.mkError "expected expression after ~")
    | some next =>
      match (if next = '[' then parse_charset fuel p1
        else if next = '`' then parse_terminal p1
        else
          match parse_nonterminal p1 with
          | some r => .ok r
          | none =>
            .error (p1.mkError
              "expected a charset, terminal, or name after ~ negation")) with
      | .error e => .error e
      | .ok (kind, p2) => .ok (.NegExpression (box_kind kind), p2)

/-- `fn parse_unicode` (the `U+` has already been consumed). -/
def parse_unicode (p : Parser) : Except Error (ExpressionKind × Parser) :=
  match unicodeRe p with
  | some (s, p') => .ok (.Unicode s, p')
  | none =>
    .error (p.mkError "expected 4 hexadecimal uppercase digits after U+")

/-- The scanning loop of `fn parse_suffix`: after the `" _"` opener, walk
forward toggling `in_backtick` on every backtick; an underscore seen
outside backticks and followed by a space, newline, or end of input stops
the scan (one past the underscore); a raw newline or end of input is an
error. -/
def suffixLoop : Nat → Parser → Bool → Except Error Parser
  | 0, _, _ => .error fuelError
  | n + 1, p, in_backtick =>
    match p.peek with
    | none => .error (p.mkError "failed to find end of _ suffixed text")
    | some next =>
      let p1 := p.adv 1
      if next = '\n' then
        .error (p1.mkError "failed to find end of _ suffixed text")
      else if next = '`' then suffixLoop n p1 (!in_backtick)
      else if next = '_' ∧ in_backtick = false then
        match p1.peek with
        | none => .ok p1
        | some b => if b = '\n' ∨ b = ' ' then .ok p1 else suffixLoop n p1 in_backtick
      else suffixLoop n p1 in_backtick

/-- `fn parse_suffix`. -/
def parse_suffix (fuel : Nat) (p : Parser) :
    Except Error (Option String × Parser) :=
  let r := take_str " _".data p
  if r.1 then
    let start := r.2.index
    match suffixLoop fuel r.2 false with
    | .error e => .error e
    | .ok p2 =>
      .ok (some (String.mk ((p2.input.drop start).take (p2.index - 1 - start))), p2)
  else .ok (none, p)

/-- `fn parse_footnote`. -/
def parse_footnote (p : Parser) : Except Error (Option String × Parser) :=
  let r := take_str "[^".data p
  if r.1 then
    match footnoteRe r.2 with
    | some (s, p2) => .ok (some s, p2)
    | none =>
      .error (r.2.mkError "unterminated footnote, expected closing `]`")
  else .ok (none, p)

/-- The shared tail of `fn parse_expr1`: after the repetition step has
produced the final `kind`, parse the optional suffix annotation and the
optional footnote and attach both to the one resulting expression. -/
def exprFinish (fuel : Nat) (kind : ExpressionKind) (p : Parser) :
    Except Error (Option Expression × Parser) :=
  match parse_suffix fuel p with
  | .error e => .error e
  | .ok (suffix, p3) =>
    match parse_footnote p3 with
    | .error e => .error e
    | .ok (footnote, p4) => .ok (some (.mk kind suffix footnote), p4)

/-! ## The mutually recursive expression parser -/

mutual
/-- `fn parse_expression`: alternation of sequences, lowest precedence. -/
def parse_expression : Nat → Parser → Except Error (Option Expression × Parser)
  | 0, _ => .error fuelError
  | n + 1, p =>
    match altSeqs n p with
    | .error e => .error e
    | .ok (es, p1) =>
      match es with
      | [] => .ok (none, p1)
      | [e] => .ok (some e, p1)
      | _ => .ok (some (.mk (.Alt es) none none), p1)

/-- The accumulation loop of `parse_expression`: sequences separated by
`ALT_RE` pipes. -/
def altSeqs : Nat → Parser → Except Error (List Expression × Parser)
  | 0, _ => .error fuelError
  | n + 1, p =>
    match parse_seq n p with
    | .error e => .error e
    | .ok (none, p1) => .ok ([], p1)
    | .ok (some e, p1) =>
      match altRe p1 with
      | none => .ok ([e], p1)
      | some p2 =>
        match altSeqs n p2 with
        | .error e => .error e
        | .ok (es, p3) => .ok (e :: es, p3)

/-- `fn parse_seq`: a sequence of terms. -/
def parse_seq : Nat → Parser → Except Error (Option Expression × Parser)
  | 0, _ => .error fuelError
  | n + 1, p =>
    match seqTerms n p with
    | .error e => .error e
    | .ok (es, p1) =>
      match es with
      | [] => .ok (none, p1)
      | [e] => .ok (some e, p1)
      | _ => .ok (some (.mk (.Sequence es) none none), p1)

/-- The accumulation loop of `parse_seq`: `space0` then one term, until a
term fails to appear. -/
def seqTerms : Nat → Parser → Except Error (List Expression × Parser)
  | 0, _ => .error fuelError
  | n + 1, p =>
    let p0 := (space0 p).2
    match parse_expr1 n p0 with
    | .error e => .error e
    | .ok (none, p1) => .ok ([], p1)
    | .ok (some e, p1) =>
      match seqTerms n p1 with
      | .error e => .error e
      | .ok (es, p2) => .ok (e :: es, p2)

/-- The base-form dispatch of `fn parse_expr1` (everything before the
repetition/suffix/footnote handling): `(none, p')` models the three
`return Ok(None)` paths (end of input, a blank line after a consumed
newline, and an unrecognized next character). -/
def parse_base : Nat → Parser → Except Error (Option ExpressionKind × Parser)
  | 0, _ => .error fuelError
  | n + 1, p =>
    match p.peek with
    | none => .ok (none, p)
    | some next =>
      let ru := take_str "U+".data p
      if ru.1 then
        match parse_unicode ru.2 with
        | .error e => .error e
        | .ok (k, p2) => .ok (some k, p2)
      else
        if next.isAlphanum then
          match parse_nonterminal p with
          | some (k, p1) => .ok (some k, p1)
          | none => .error (panicError "first char already checked")
        else
          let rn := take_str "\n".data p
          if rn.1 then
            let p1 := rn.2
            if p1.eof then .ok (none, p1)
            else
              let rn2 := take_str "\n".data p1
              if rn2.1 then .ok (none, rn2.2)
              else
                let r := take_while (fun ch => ch = ' ') p1
                if r.1.length = 0 then
                  .error (p1.mkError "expected indentation on next line")
                else .ok (some (.Break r.1.length), r.2)
          else
            if next = '`' then
              match parse_terminal p with
              | .error e => .error e
              | .ok (k, p1) => .ok (some k, p1)
            else if next = '[' then
              match parse_charset n p with
              | .error e => .error e
              | .ok (k, p1) => .ok (some k, p1)
            else if next = '<' then
              match parse_prose p with
              | .error e => .error e
              | .ok (k, p1) => .ok (some k, p1)
            else if next = '(' then
              match parse_grouped n p with
              | .error e => .error e
              | .ok (k, p1) => .ok (some k, p1)
            else if next = '~' then
              match parse_neg_expression n p with
              | .error e => .error e
              | .ok (k, p1) => .ok (some k, p1)
            else .ok (none, p)

/-- `fn parse_expr1`: one term — a base form, then an optional repetition
modifier (`REPEAT_RE` first, else `RANGE_RE` with its malformed-range
check), then the optional suffix annotation and footnote. -/
def parse_expr1 : Nat → Parser → Except Error (Option Expression × Parser)
  | 0, _ => .error fuelError
  | n + 1, p =>
    match parse_base n p with
    | .error e => .error e
    | .ok (none, p1) => .ok (none, p1)
    | .ok (some kind0, p1) =>
      match repeatRe p1 with
      | some (op, p2) =>
        exprFinish n
          (match op with
           | .opt => .Optional (box_kind kind0)
           | .star => .Repeat (box_kind kind0)
           | .starNG => .RepeatNonGreedy (box_kind kind0)
           | .plus => .RepeatPlus (box_kind kind0)
           | .plusNG => .RepeatPlusNonGreedy (box_kind kind0)) p2
      | none =>
        match rangeRe p1 with
        | some (a, b, p2) =>
          -- the malformed-range check `(Some(a), Some(b)) if b < a`
          match a, b with
          | some av, some bv =>
            if bv < av then
              .error (p2.mkError ("range " ++ toString av ++ ".." ++
                toString bv ++ " is malformed"))
            else
              exprFinish n (.RepeatRange (box_kind kind0) (some av) (some bv)) p2
          | none, b => exprFinish n (.RepeatRange (box_kind kind0) none b) p2
          | some av, none =>
            exprFinish n (.RepeatRange (box_kind kind0) (some av) none) p2
        | none => exprFinish n kind0 p1

/-- `fn parse_grouped`. -/
def parse_grouped : Nat → Parser → Except Error (ExpressionKind × Parser)
  | 0, _ => .error fuelError
  | n + 1, p =>
    match expect "(".data "expected opening `(`" p with
    | .error e => .error e
    | .ok p1 =>
      let p2 := (space0 p1).2
      match parse_expression n p2 with
      | .error e => .error e
      | .ok (none, p3) =>
        .error (p3.mkError "expected expression in parenthesized group")
      | .ok (some e, p3) =>
        let p4 := (space0 p3).2
        match expect ")".data "expected closing `)`" p4 with
        | .error e => .error e
        | .ok p5 => .ok (.Grouped e, p5)
end

/-! ## Productions and the registry aggregator -/

/-- `fn parse_production`. -/
def parse_production (fuel : Nat) (p : Parser) (category path : String) :
    Except Error (Production × Parser) :=
  let r0 := parse_is_root p
  let is_root := r0.1
  let pa := (space0 r0.2).2
  match parse_name pa with
  | none => .error (pa.mkError "expected production name")
  | some (name, pb) =>
    match expect " ->".data "expected -> arrow" pb with
    | .error e => .error e
    | .ok pc =>
      match parse_expression fuel pc with
      | .error e => .error e
      | .ok (none, pd) => .error (pd.mkError "expected an expression")
      | .ok (some expression, pd) =>
        .ok ({ name := name, category := category,
               expression := expression, path := path,
               is_root := is_root }, pd)

/-- The production loop of `fn parse_grammar`: parse a production, push
its name onto `name_order`, insert it into the map, fail if the insert
displaced an earlier production of the same name, then skip blank lines
and stop at end of input.  The grammar is returned in every case, so
mutations made before a failure stay visible (the `&mut Grammar`). -/
def parse_grammar_loop : Nat → Parser → Grammar → String → String →
    Except Error Unit × Grammar
  | 0, _, g, _, _ => (.error fuelError, g)
  | n + 1, p, g, category, path =>
    match parse_production n p category path with
    | .error e => (.error e, g)
    | .ok (prod, p1) =>
      let g1 : Grammar :=
        { name_order := g.name_order ++ [prod.name],
          productions := g.productions }
      let ins := mapInsert g1.productions prod.name prod
      let g2 : Grammar := { name_order := g1.name_order, productions := ins.2 }
      match ins.1 with
      | some dupe =>
        (.error (p1.mkError
          ("duplicate production " ++ dupe.name ++ " in grammar")), g2)
      | none =>
        let p2 := (take_while (fun ch => ch = '\n') p1).2
        if p2.eof then (.ok (), g2)
        else parse_grammar_loop n p2 g2 category path

/-- `pub fn parse_grammar`. -/
def parse_grammar (fuel : Nat) (input : String) (grammar : Grammar)
    (category path : String) : Except Error Unit × Grammar :=
  parse_grammar_loop fuel { input := input.data, index := 0 } grammar
    category path

/-- The empty registry the caller starts from. -/
def emptyGrammar : Grammar := { name_order := [], productions := [] }

/-! ## Claim-support definitions -/

/-- The message of an error result, if any. -/
def errMsg {α : Type} : Except Error α → Option String
  | .error e => some e.message
  | .ok _ => none

/-- A repetition wrapper's inner expression is fresh: no suffix, no
footnote (trivially true for non-repetition kinds). -/
def repeatFresh : ExpressionKind → Prop
  | .Optional e => e.suffix = none ∧ e.footnote = none
  | .Repeat e => e.suffix = none ∧ e.footnote = none
  | .RepeatNonGreedy e => e.suffix = none ∧ e.footnote = none
  | .RepeatPlus e => e.suffix = none ∧ e.footnote = none
  | .RepeatPlusNonGreedy e => e.suffix = none ∧ e.footnote = none
  | .RepeatRange e _ _ => e.suffix = none ∧ e.footnote = none
  | _ => True

/-- A repetition range with both bounds present has min ≤ max (trivially
true for other kinds). -/
def rangeOkTop : ExpressionKind → Prop
  | .RepeatRange _ (some a) (some b) => a ≤ b
  | _ => True

/-- The kind is none of the repetition wrappers. -/
def notRepeatKind : ExpressionKind → Prop
  | .Optional _ => False
  | .Repeat _ => False
  | .RepeatNonGreedy _ => False
  | .RepeatPlus _ => False
  | .RepeatPlusNonGreedy _ => False
  | .RepeatRange _ _ _ => False
  | _ => True

/-- The operand forms negation accepts: a charset, a terminal, or a
nonterminal name. -/
def negOperand : ExpressionKind → Prop
  | .Charset _ => True
  | .Terminal _ => True
  | .Nt _ => True
  | _ => False

/-- A successfully parsed negation: a `NegExpression` whose fresh inner
expression is a charset, terminal, or nonterminal. -/
def negShape : ExpressionKind → Prop
  | .NegExpression e =>
    e.suffix = none ∧ e.footnote = none ∧ negOperand e.kind
  | _ => False

/-- The character class `[A-Z0-9]` of the codepoint literal. -/
def hexUpperClass (c : Char) : Bool :=
  c.isUpper || c.isDigit

/-- Not a newline. -/
def notNl (c : Char) : Bool :=
  ¬ c = '\n'

/-- Modelled from the claim's counting description: the number of
newlines among the first `i` characters — the manual line count (the
reported line number should be one more). -/
def manualNl (s : List Char) (i : Nat) : Nat :=
  (s.take i).count '\n'

/-- Modelled from the claim's counting description: the start offset of
the line containing offset `i` — the position right after the last
newline among the first `i` characters (`0` if there is none). -/
def manualLineStart (s : List Char) (i : Nat) : Nat :=
  i - ((s.take i).reverse.takeWhile notNl).length

/-- Modelled from the claim's counting description: the text of the line
containing offset `i` — from its start up to the next newline. -/
def manualLine (s : List Char) (i : Nat) : List Char :=
  (s.drop (manualLineStart s i)).takeWhile notNl

/-- The first production of the C1 scenario (`a -> `x``). -/
def prodX : Production :=
  { name := "a", category := "c",
    expression := .mk (.Terminal "x") none none,
    path := "p", is_root := false }

/-- The second production of the C1 scenario (`a -> `y``). -/
def prodY : Production :=
  { name := "a", category := "c",
    expression := .mk (.Terminal "y") none none,
    path := "p", is_root := false }

/-! ## Theorems -/

/-- C1 counterexample: registering `a -> `x`` and then `a -> `y`` against
one registry does fail with the duplicate-production error naming `a`,
but — contrary to the claim — the second insertion occurs: the name
appears twice in `name_order` (count 2, not 1) and the map afterwards
holds the second production (`Terminal "y"`), not the first. -/
theorem c1_counterexample :
    errMsg (parse_grammar 100 "a -> `y`"
      (parse_grammar 100 "a -> `x`" emptyGrammar "c" "p").2 "c" "p").1 =
      some "duplicate production a in grammar" ∧
    (parse_grammar 100 "a -> `y`"
      (parse_grammar 100 "a -> `x`" emptyGrammar "c" "p").2 "c" "p").2.name_order =
      ["a", "a"] ∧
    (parse_grammar 100 "a -> `y`"
      (parse_grammar 100 "a -> `x`" emptyGrammar "c" "p").2 "c" "p").2.name_order.count "a" = 2 ∧
    mapFind (parse_grammar 100 "a -> `y`"
      (parse_grammar 100 "a -> `x`" emptyGrammar "c" "p").2 "c" "p").2.productions "a" =
      some prodY ∧
    ¬ prodY = prodX := by
  refine ⟨rfl, rfl, by decide, rfl, ?_⟩
  intro h
  simpa [prodY, prodX] using congrArg Production.expression h

/-- C1 amended: registering two productions with the same name fails with
a duplicate-production error naming that production, but the second
insertion does occur before the error is raised: the map insert returns
the previously stored production and leaves the new one in the map (the
general insert law), and in the two-call scenario the duplicate name is
appended to `name_order` again, so `name_order`'s length counts insertion
attempts, not distinct names. -/
theorem c1_duplicate_amended :
    (∀ ps k v old, mapFind ps k = some old →
      (mapInsert ps k v).1 = some old ∧
      mapFind (mapInsert ps k v).2 k = some v) ∧
    (errMsg (parse_grammar 100 "a -> `y`"
      (parse_grammar 100 "a -> `x`" emptyGrammar "c" "p").2 "c" "p").1 =
      some "duplicate production a in grammar" ∧
    (parse_grammar 100 "a -> `y`"
      (parse_grammar 100 "a -> `x`" emptyGrammar "c" "p").2 "c" "p").2.name_order =
      ["a", "a"] ∧
    mapFind (parse_grammar 100 "a -> `y`"
      (parse_grammar 100 "a -> `x`" emptyGrammar "c" "p").2 "c" "p").2.productions "a" =
      some prodY) := by
  constructor
  · intro ps k v old h
    induction ps with
    | nil => simp [mapFind] at h
    | cons hd tl ih =>
      obtain ⟨k', v'⟩ := hd
      by_cases hk : k' = k
      · subst hk
        simp only [mapFind, if_pos rfl] at h
        injection h with h
        subst h
        refine ⟨by simp [mapInsert], by simp [mapInsert, mapFind]⟩
      · simp only [mapFind, if_neg hk] at h
        have ih' := ih h
        refine ⟨?_, ?_⟩
        · simpa [mapInsert, if_neg hk] using ih'.1
        · simpa [mapInsert, mapFind, if_neg hk] using ih'.2
  · exact ⟨rfl, rfl, rfl⟩

/-- C1 witness: the insert law of the amended theorem applied at the
concrete one-entry map. -/
theorem c1_duplicate_amended_witness :
    (mapInsert [("a", prodX)] "a" prodY).1 = some prodX ∧
    mapFind (mapInsert [("a", prodX)] "a" prodY).2 "a" = some prodY :=
  c1_duplicate_amended.1 [("a", prodX)] "a" prodY prodX rfl

/-- A successful `parse_unicode` yields a `Unicode` kind. -/
theorem parse_unicode_shape {p : Parser} {k : ExpressionKind} {p' : Parser}
    (h : parse_unicode p = .ok (k, p')) : ∃ s, k = .Unicode s := by
  unfold parse_unicode at h
  split at h <;> simp_all
  exact ⟨_, h.1.symm⟩

/-- A successful `parse_nonterminal` yields an `Nt` kind. -/
theorem parse_nonterminal_shape {p : Parser} {k : ExpressionKind}
    {p' : Parser} (h : parse_nonterminal p = some (k, p')) :
    ∃ s, k = .Nt s := by
  unfold parse_nonterminal at h
  split at h <;> simp_all
  exact ⟨_, h.1.symm⟩

/-- A successful `parse_terminal` yields a `Terminal` kind. -/
theorem parse_terminal_shape {p : Parser} {k : ExpressionKind} {p' : Parser}
    (h : parse_terminal p = .ok (k, p')) : ∃ s, k = .Terminal s := by
  unfold parse_terminal at h
  split at h <;> simp_all
  exact ⟨_, h.1.symm⟩

/-- A successful `parse_charset` yields a `Charset` kind. -/
theorem parse_charset_shape {fuel : Nat} {p : Parser} {k : ExpressionKind}
    {p' : Parser} (h : parse_charset fuel p = .ok (k, p')) :
    ∃ cs, k = .Charset cs := by
  unfold parse_charset at h
  split at h <;> try simp_all
  split at h <;> try simp_all
  split at h <;> try simp_all
  split at h <;> simp_all
  exact ⟨_, h.1.symm⟩

/-- A successful `parse_prose` yields a `Prose` kind. -/
theorem parse_prose_shape {p : Parser} {k : ExpressionKind} {p' : Parser}
    (h : parse_prose p = .ok (k, p')) : ∃ s, k = .Prose s := by
  unfold parse_prose at h
  split at h <;> simp_all
  exact ⟨_, h.1.symm⟩

/-- A successful `parse_grouped` yields a `Grouped` kind. -/
theorem parse_grouped_shape {fuel : Nat} {p : Parser} {k : ExpressionKind}
    {p' : Parser} (h : parse_grouped fuel p = .ok (k, p')) :
    ∃ e, k = .Grouped e := by
  cases fuel with
  | zero => simp [parse_grouped] at h
  | succ n =>
    simp only [parse_grouped] at h
    split at h <;> try simp_all
    split at h <;> try simp_all
    split at h <;> simp_all
    exact ⟨_, h.1.symm⟩

/-- A successful `parse_neg_expression` yields a `NegExpression` whose
fresh inner expression is a charset, terminal, or nonterminal. -/
theorem parse_neg_full {fuel : Nat} {p : Parser} {k : ExpressionKind}
    {p' : Parser} (h : parse_neg_expression fuel p = .ok (k, p')) :
    negShape k := by
  unfold parse_neg_expression at h
  split at h
  · simp at h
  · split at h
    · simp at h
    · split at h
      · simp at h
      · next kk pp heq =>
        simp only [Except.ok.injEq, Prod.mk.injEq] at h
        obtain ⟨rfl, rfl⟩ := h
        split at heq
        · obtain ⟨cs, rfl⟩ := parse_charset_shape heq
          exact ⟨rfl, rfl, trivial⟩
        · split at heq
          · obtain ⟨s, rfl⟩ := parse_terminal_shape heq
            exact ⟨rfl, rfl, trivial⟩
          · split at heq
            · next r hr =>
              obtain ⟨rk, rp⟩ := r
              obtain ⟨s, rfl⟩ := parse_nonterminal_shape hr
              simp only [Except.ok.injEq, Prod.mk.injEq] at heq
              obtain ⟨rfl, rfl⟩ := heq
              exact ⟨rfl, rfl, trivial⟩
            · simp at heq

/-- A successful `parse_base` never yields a repetition-wrapper kind. -/
theorem parse_base_shape {fuel : Nat} {p : Parser} {k : ExpressionKind}
    {p' : Parser} (h : parse_base fuel p = .ok (some k, p')) :
    notRepeatKind k := by
  cases fuel with
  | zero => simp [parse_base] at h
  | succ n =>
    simp only [parse_base] at h
    split at h
    · simp at h
    · split at h
      · -- U+
        split at h
        · simp at h
        · next kk pp heq =>
          obtain ⟨s, rfl⟩ := parse_unicode_shape heq
          simp only [Except.ok.injEq, Prod.mk.injEq, Option.some.injEq] at h
          obtain ⟨rfl, rfl⟩ := h
          trivial
      · split at h
        · -- alphanumeric: nonterminal
          split at h
          · next kk pp heq =>
            obtain ⟨s, rfl⟩ := parse_nonterminal_shape heq
            simp only [Except.ok.injEq, Prod.mk.injEq, Option.some.injEq] at h
            obtain ⟨rfl, rfl⟩ := h
            trivial
          · simp at h
        · split at h
          · -- newline
            split at h
            · simp at h
            · split at h
              · simp at h
              · split at h
                · simp at h
                · simp only [Except.ok.injEq, Prod.mk.injEq,
                    Option.some.injEq] at h
                  obtain ⟨rfl, rfl⟩ := h
                  trivial
          · split at h
            · -- terminal
              split at h
              · simp at h
              · next kk pp heq =>
                obtain ⟨s, rfl⟩ := parse_terminal_shape heq
                simp only [Except.ok.injEq, Prod.mk.injEq,
                  Option.some.injEq] at h
                obtain ⟨rfl, rfl⟩ := h
                trivial
            · split at h
              · -- charset
                split at h
                · simp at h
                · next kk pp heq =>
                  obtain ⟨cs, rfl⟩ := parse_charset_shape heq
                  simp only [Except.ok.injEq, Prod.mk.injEq,
                    Option.some.injEq] at h
                  obtain ⟨rfl, rfl⟩ := h
                  trivial
              · split at h
                · -- prose
                  split at h
                  · simp at h
                  · next kk pp heq =>
                    obtain ⟨s, rfl⟩ := parse_prose_shape heq
                    simp only [Except.ok.injEq, Prod.mk.injEq,
                      Option.some.injEq] at h
                    obtain ⟨rfl, rfl⟩ := h
                    trivial
                · split at h
                  · -- grouped
                    split at h
                    · simp at h
                    · next kk pp heq =>
                      obtain ⟨e, rfl⟩ := parse_grouped_shape heq
                      simp only [Except.ok.injEq, Prod.mk.injEq,
                        Option.some.injEq] at h
                      obtain ⟨rfl, rfl⟩ := h
                      trivial
                  · split at h
                    · -- negation
                      split at h
                      · simp at h
                      · next kk pp heq =>
                        have hn := parse_neg_full heq
                        simp only [Except.ok.injEq, Prod.mk.injEq,
                          Option.some.injEq] at h
                        obtain ⟨rfl, rfl⟩ := h
                        cases kk <;> simp_all [negShape, notRepeatKind]
                    · simp at h

/-- A successful `exprFinish` returns a single expression carrying the
kind it was given. -/
theorem exprFinish_kind {fuel : Nat} {kind : ExpressionKind} {p : Parser}
    {e : Expression} {p' : Parser}
    (h : exprFinish fuel kind p = .ok (some e, p')) : e.kind = kind := by
  unfold exprFinish at h
  split at h
  · simp at h
  · split at h
    · simp at h
    · simp only [Except.ok.injEq, Prod.mk.injEq, Option.some.injEq] at h
      obtain ⟨rfl, rfl⟩ := h.symm
      rfl

/-- A successful term parse satisfies the structural repetition laws at
its top: any repetition wrapper holds a fresh inner expression, and a
`RepeatRange` with both bounds present has min ≤ max. -/
theorem parse_expr1_top {fuel : Nat} {p : Parser} {e : Expression}
    {p' : Parser} (h : parse_expr1 fuel p = .ok (some e, p')) :
    repeatFresh e.kind ∧ rangeOkTop e.kind := by
  cases fuel with
  | zero => simp [parse_expr1] at h
  | succ n =>
    simp only [parse_expr1] at h
    split at h
    · simp at h
    · simp at h
    · next kind0 p1 hbase =>
      have hb := parse_base_shape hbase
      split at h
      · -- repetition operator
        next op p2 hrep =>
        rw [exprFinish_kind h]
        cases op <;> exact ⟨⟨rfl, rfl⟩, trivial⟩
      · split at h
        · -- repetition range
          next a b p2 hrange =>
          split at h
          · next av bv =>
            split at h
            · simp at h
            · next hlt =>
              rw [exprFinish_kind h]
              exact ⟨⟨rfl, rfl⟩, by simp only [rangeOkTop]; omega⟩
          · next b =>
            rw [exprFinish_kind h]
            exact ⟨⟨rfl, rfl⟩, by cases b <;> trivial⟩
          · next av =>
            rw [exprFinish_kind h]
            exact ⟨⟨rfl, rfl⟩, trivial⟩
        · -- no repetition modifier: the base kind is not a wrapper
          rw [exprFinish_kind h]
          cases kind0 <;> simp_all [notRepeatKind, repeatFresh, rangeOkTop]

/-- C4 counterexample: the claim's example `a -> `x`* _note_ [^1]` does
not parse at all — after the suffix annotation ends at `_` (which must be
followed by a space, newline, or end of input), the footnote opener
`[^` is no longer adjacent, so ` [^1]` is lexed as a charset term and
rejected as empty.  The claim says this input parses with suffix `note`
and footnote `1`. -/
theorem c4_counterexample :
    errMsg (parse_grammar 100 "a -> `x`* _note_ [^1]"
      emptyGrammar "c" "p").1 =
      some "expected at least one character in character group" := rfl

/-- C4 amended: every repetition wrapper produced by a term parse holds a
fresh inner expression (no suffix, no footnote), and the suffix and
footnote parsed after the modifier attach to the outer, fully-modified
expression; however a suffix annotation can never be followed by a
footnote on the same term, so the two are observed separately:
`a -> `x`* _note_` parses to kind `Repeat (Terminal "x")` with suffix
`note` (footnote absent), and `a -> `x`*[^1]` parses to the same kind
with footnote `1` (suffix absent). -/
theorem c4_repetition_attach_amended :
    (∀ fuel p e p', parse_expr1 fuel p = .ok (some e, p') →
      repeatFresh e.kind) ∧
    parse_grammar 100 "a -> `x`* _note_" emptyGrammar "c" "p" =
      (.ok (), Grammar.mk ["a"] [("a", Production.mk "a" "c"
        (.mk (.Repeat (.mk (.Terminal "x") none none)) (some "note") none)
        "p" false)]) ∧
    parse_grammar 100 "a -> `x`*[^1]" emptyGrammar "c" "p" =
      (.ok (), Grammar.mk ["a"] [("a", Production.mk "a" "c"
        (.mk (.Repeat (.mk (.Terminal "x") none none)) none (some "1"))
        "p" false)]) :=
  ⟨fun _ _ _ _ h => (parse_expr1_top h).1, rfl, rfl⟩

/-- C4 witness: the freshness law applied to the concrete term `\`x\`*`. -/
theorem c4_repetition_attach_amended_witness :
    repeatFresh (Expression.mk
      (.Repeat (.mk (.Terminal "x") none none)) none none).kind :=
  c4_repetition_attach_amended.1 20 { input := "`x`*".data, index := 0 }
    (Expression.mk (.Repeat (.mk (.Terminal "x") none none)) none none)
    { input := "`x`*".data, index := 4 } rfl

/-- C5: repetition-range bounds are each optional digit runs —
`{..5}` gives `(none, some 5)`, `{2..}` gives `(some 2, none)`,
`{2..5}` gives `(some 2, some 5)` — and whenever a parsed term carries a
range with both bounds present, min ≤ max holds, because a range with
max < min (concretely `{3..1}`) fails with the malformed-range error. -/
theorem c5_range_bounds :
    (∀ fuel p e p' inner a b, parse_expr1 fuel p = .ok (some e, p') →
      e.kind = .RepeatRange inner (some a) (some b) → a ≤ b) ∧
    parse_grammar 100 "a -> `x`{..5}" emptyGrammar "c" "p" =
      (.ok (), Grammar.mk ["a"] [("a", Production.mk "a" "c"
        (.mk (.RepeatRange (.mk (.Terminal "x") none none) none (some 5))
          none none) "p" false)]) ∧
    parse_grammar 100 "a -> `x`{2..}" emptyGrammar "c" "p" =
      (.ok (), Grammar.mk ["a"] [("a", Production.mk "a" "c"
        (.mk (.RepeatRange (.mk (.Terminal "x") none none) (some 2) none)
          none none) "p" false)]) ∧
    parse_grammar 100 "a -> `x`{2..5}" emptyGrammar "c" "p" =
      (.ok (), Grammar.mk ["a"] [("a", Production.mk "a" "c"
        (.mk (.RepeatRange (.mk (.Terminal "x") none none) (some 2) (some 5))
          none none) "p" false)]) ∧
    errMsg (parse_grammar 100 "a -> `x`{3..1}" emptyGrammar "c" "p").1 =
      some "range 3..1 is malformed" := by
  refine ⟨?_, rfl, rfl, rfl, rfl⟩
  intro fuel p e p' inner a b h hk
  have := (parse_expr1_top h).2
  rw [hk] at this
  exact this

/-- C5 witness: the bound law applied to the concrete term `\`x\`{2..5}`. -/
theorem c5_range_bounds_witness : (2 : Nat) ≤ 5 :=
  c5_range_bounds.1 20 { input := "`x`{2..5}".data, index := 0 }
    (Expression.mk
      (.RepeatRange (.mk (.Terminal "x") none none) (some 2) (some 5))
      none none)
    { input := "`x`{2..5}".data, index := 9 }
    (Expression.mk (.Terminal "x") none none) 2 5 rfl rfl

/-- C6: negation accepts exactly a charset, a terminal, or a nonterminal
name as its operand — every successful `parse_neg_expression` yields a
`NegExpression` over one of those three (with a fresh inner expression),
`~\`a\``, `~[\`a\`-\`z\`]`, and `~name` all parse, and a parenthesized
group `~(\`a\` \`b\`)` fails. -/
theorem c6_negation_operands :
    (∀ fuel p k p', parse_neg_expression fuel p = .ok (k, p') →
      negShape k) ∧
    parse_neg_expression 50 { input := "~`a`".data, index := 0 } =
      .ok (.NegExpression (.mk (.Terminal "a") none none),
        { input := "~`a`".data, index := 4 }) ∧
    parse_neg_expression 50 { input := "~[`a`-`z`]".data, index := 0 } =
      .ok (.NegExpression (.mk (.Charset [.Range 'a' 'z']) none none),
        { input := "~[`a`-`z`]".data, index := 10 }) ∧
    parse_neg_expression 50 { input := "~name".data, index := 0 } =
      .ok (.NegExpression (.mk (.Nt "name") none none),
        { input := "~name".data, index := 5 }) ∧
    errMsg (parse_neg_expression 50
      { input := "~(`a` `b`)".data, index := 0 }) =
      some "expected a charset, terminal, or name after ~ negation" ∧
    errMsg (parse_grammar 100 "a -> ~(`a` `b`)" emptyGrammar "c" "p").1 =
      some "expected a charset, terminal, or name after ~ negation" :=
  ⟨fun _ _ _ _ h => parse_neg_full h, rfl, rfl, rfl, rfl, rfl⟩

/-- C6 witness: the operand law applied to the concrete negation `~\`a\``. -/
theorem c6_negation_operands_witness :
    negShape (.NegExpression (.mk (.Terminal "a") none none)) :=
  c6_negation_operands.1 50 { input := "~`a`".data, index := 0 }
    (.NegExpression (.mk (.Terminal "a") none none))
    { input := "~`a`".data, index := 4 } rfl

/-- C7: a codepoint literal is `U+` followed by exactly four characters
each an ASCII uppercase letter or digit, producing a `Unicode` node
holding those four characters; the check is character-class only — the
non-hexadecimal `U+GGGG` is accepted — while any continuation failing
the class check makes the parse fail. -/
theorem c7_codepoint_class :
    (∀ (p : Parser) c1 c2 c3 c4 rest, p.rest = c1 :: c2 :: c3 :: c4 :: rest →
      hexUpperClass c1 = true → hexUpperClass c2 = true →
      hexUpperClass c3 = true → hexUpperClass c4 = true →
      parse_unicode p = .ok (.Unicode (String.mk [c1, c2, c3, c4]), p.adv 4)) ∧
    (∀ p, unicodeRe p = none →
      parse_unicode p = .error
        (p.mkError "expected 4 hexadecimal uppercase digits after U+")) ∧
    parse_grammar 100 "a -> U+GGGG" emptyGrammar "c" "p" =
      (.ok (), Grammar.mk ["a"] [("a", Production.mk "a" "c"
        (.mk (.Unicode "GGGG") none none) "p" false)]) ∧
    errMsg (parse_grammar 100 "a -> U+12g4" emptyGrammar "c" "p").1 =
      some "expected 4 hexadecimal uppercase digits after U+" ∧
    errMsg (parse_grammar 100 "a -> U+12" emptyGrammar "c" "p").1 =
      some "expected 4 hexadecimal uppercase digits after U+" := by
  refine ⟨?_, ?_, rfl, rfl, rfl⟩
  · intro p c1 c2 c3 c4 rest hrest h1 h2 h3 h4
    simp only [hexUpperClass] at h1 h2 h3 h4
    unfold parse_unicode unicodeRe
    rw [hrest]
    simp [h1, h2, h3, h4]
  · intro p h
    unfold parse_unicode
    rw [h]

/-- C7 witness: the class law applied to the concrete remaining input
`GGGG` (not valid hexadecimal, accepted all the same). -/
theorem c7_codepoint_class_witness :
    parse_unicode { input := "GGGG".data, index := 0 } =
      .ok (.Unicode (String.mk ['G', 'G', 'G', 'G']),
        Parser.adv { input := "GGGG".data, index := 0 } 4) :=
  c7_codepoint_class.1 { input := "GGGG".data, index := 0 }
    'G' 'G' 'G' 'G' [] rfl rfl rfl rfl rfl

/-- Consuming spaces takes a whole run of spaces. -/
theorem takeWhile_space_replicate (n : Nat) :
    List.takeWhile (fun ch => decide (ch = ' ')) (List.replicate n ' ') =
      List.replicate n ' ' := by
  induction n with
  | zero => rfl
  | succ m ih => simp [List.replicate_succ, List.takeWhile_cons, ih]

/-- C8: a newline is parsed as a `Break` term carrying the count of
following spaces exactly when at least one space follows (shown for every
indent width `n > 0`); a newline followed by another newline, or a
trailing newline at end of input, ends the enclosing sequence instead
(both productions still register); and a newline followed by a non-space
character fails with an indentation error positioned at line 2, column 1
— immediately after the newline. -/
theorem c8_line_break :
    (∀ (n fuel : Nat), 0 < n →
      parse_expr1 (fuel + 2)
        { input := '\n' :: List.replicate n ' ', index := 0 } =
        .ok (some (.mk (.Break n) none none),
          { input := '\n' :: List.replicate n ' ', index := n + 1 })) ∧
    parse_grammar 100 "a -> `x`\n  `y`" emptyGrammar "c" "p" =
      (.ok (), Grammar.mk ["a"] [("a", Production.mk "a" "c"
        (.mk (.Sequence [.mk (.Terminal "x") none none,
          .mk (.Break 2) none none, .mk (.Terminal "y") none none])
          none none) "p" false)]) ∧
    parse_grammar 100 "a -> `x`\n\nb -> `y`" emptyGrammar "c" "p" =
      (.ok (), Grammar.mk ["a", "b"]
        [("a", Production.mk "a" "c" (.mk (.Terminal "x") none none)
           "p" false),
         ("b", Production.mk "b" "c" (.mk (.Terminal "y") none none)
           "p" false)]) ∧
    parse_grammar 100 "a -> `x`\n" emptyGrammar "c" "p" =
      (.ok (), Grammar.mk ["a"] [("a", Production.mk "a" "c"
        (.mk (.Terminal "x") none none) "p" false)]) ∧
    parse_grammar 100 "a -> `x`\n`y`" emptyGrammar "c" "p" =
      (.error (Error.mk "expected indentation on next line" "`y`" 2 1),
        emptyGrammar) := by
  refine ⟨?_, rfl, rfl, rfl, rfl⟩
  intro n fuel hn
  obtain ⟨m, rfl⟩ : ∃ m, n = m + 1 := ⟨n - 1, by omega⟩
  have hdrop :
      List.drop (1 + (m + 1)) ('\n' :: ' ' :: List.replicate m ' ') = [] :=
    List.drop_eq_nil_of_le (by simp; omega)
  simp [parse_expr1, parse_base, take_str, Parser.rest, Parser.adv,
    Parser.peek, Parser.eof, take_while, List.replicate_succ,
    List.isPrefixOf, exprFinish, parse_suffix, parse_footnote,
    repeatRe, rangeRe, repOpAt, takeWhile_space_replicate, hdrop]
  omega

/-- C8 witness: the Break law at indent width 1. -/
theorem c8_line_break_witness :
    parse_expr1 2 { input := '\n' :: List.replicate 1 ' ', index := 0 } =
      .ok (some (.mk (.Break 1) none none),
        { input := '\n' :: List.replicate 1 ' ', index := 2 }) :=
  c8_line_break.1 1 0 (by decide)

/-- Advancing the offset drops characters from the remaining input. -/
theorem Parser_rest_adv (p : Parser) (n : Nat) :
    (p.adv n).rest = p.rest.drop n := by
  simp [Parser.rest, Parser.adv, List.drop_drop]

/-- Advancing twice advances by the sum. -/
theorem Parser_adv_adv (p : Parser) (a b : Nat) :
    (p.adv a).adv b = p.adv (a + b) := by
  simp [Parser.adv, Nat.add_assoc]

/-- Dropping past a prefix continues inside the tail. -/
theorem drop_len_add (l₁ l₂ : List Char) (k : Nat) :
    List.drop (l₁.length + k) (l₁ ++ l₂) = List.drop k l₂ := by
  rw [← List.drop_drop, List.drop_left]

/-- The suffix scan walks over a run of ordinary characters (no newline,
no backtick, and an underscore only while inside backticks) without
changing the flag. -/
theorem suffixLoop_skip :
    ∀ (s : List Char) (m : Nat) (p : Parser) (b : Bool) (r : List Char),
    p.rest = s ++ r →
    (∀ c ∈ s, ¬ c = '\n' ∧ ¬ c = '`' ∧ (c = '_' → b = true)) →
    suffixLoop (s.length + m) p b = suffixLoop m (p.adv s.length) b := by
  intro s
  induction s with
  | nil =>
    intro m p b r hrest hcl
    simp [Parser.adv]
  | cons c s' ih =>
    intro m p b r hrest hcl
    obtain ⟨hnl, hbt, hus⟩ := hcl c (by simp)
    have hpeek : p.peek = some c := by
      simp [Parser.peek, hrest]
    rw [show (c :: s').length + m = (s'.length + m) + 1 from by simp; omega]
    rw [suffixLoop, hpeek]
    simp only [hnl, hbt, if_neg, ite_false, if_false]
    rw [if_neg (fun hc => Bool.noConfusion ((hus hc.1).symm.trans hc.2))]
    have hrest' : (p.adv 1).rest = s' ++ r := by
      rw [Parser_rest_adv, hrest]
      simp
    rw [ih m (p.adv 1) b r hrest' (fun cc hcc => hcl cc (by simp [hcc]))]
    rw [Parser_adv_adv]
    have harith : (1 : Nat) + s'.length = (c :: s').length := by
      simp [List.length_cons]
      omega
    rw [harith]

/-- The suffix scan toggles the inside-literal flag on every backtick. -/
theorem suffixLoop_backtick (m : Nat) (p : Parser) (b : Bool)
    (r : List Char) (h : p.rest = '`' :: r) :
    suffixLoop (m + 1) p b = suffixLoop m (p.adv 1) (!b) := by
  have hpeek : p.peek = some '`' := by simp [Parser.peek, h]
  rw [suffixLoop, hpeek]
  simp

/-- The suffix scan stops one past an underscore seen while the flag is
false and followed by a newline, a space, or end of input. -/
theorem suffixLoop_stop (m : Nat) (p : Parser) (r : List Char)
    (h : p.rest = '_' :: r)
    (hr : r = [] ∨ ∃ c t, r = c :: t ∧ (c = '\n' ∨ c = ' ')) :
    suffixLoop (m + 1) p false = .ok (p.adv 1) := by
  have hpeek : p.peek = some '_' := by simp [Parser.peek, h]
  rw [suffixLoop, hpeek]
  have hpeek1 : (p.adv 1).rest = r := by rw [Parser_rest_adv, h]; simp
  dsimp only
  rw [if_neg (by decide : ¬ ('_' : Char) = '\n'),
      if_neg (by decide : ¬ ('_' : Char) = '`'),
      if_pos (by simp : ('_' : Char) = '_' ∧ (false : Bool) = false)]
  rcases hr with hnil | ⟨c, t, rfl, hc⟩
  · subst hnil
    have : (p.adv 1).peek = none := by simp [Parser.peek, hpeek1]
    rw [this]
  · have : (p.adv 1).peek = some c := by simp [Parser.peek, hpeek1]
    rw [this]
    simp [hc]

/-- C9: suffix-annotation scanning toggles an inside-literal flag on every
backtick; an underscore seen while that flag is false and followed by a
space, newline, or end of input terminates the annotation with the
terminator excluded from the captured text (shown for every annotation
`s1 \`s2\` s3` whose quoted middle may contain underscores); an
underscore followed by anything else does not terminate (` _a_b_ `
captures `a_b`); reaching a raw newline or end of input first fails. -/
theorem c9_suffix_scan :
    (∀ (s1 s2 s3 : List Char) (m : Nat),
    (∀ c ∈ s1, ¬ c = '\n' ∧ ¬ c = '`' ∧ ¬ c = '_') →
    (∀ c ∈ s2, ¬ c = '\n' ∧ ¬ c = '`') →
    (∀ c ∈ s3, ¬ c = '\n' ∧ ¬ c = '`' ∧ ¬ c = '_') →
    parse_suffix (s1.length + s2.length + s3.length + 3 + m)
      { input := ' ' :: '_' :: (s1 ++ ('`' :: (s2 ++ ('`' :: (s3 ++ ['_']))))),
        index := 0 } =
      .ok (some (String.mk (s1 ++ ('`' :: (s2 ++ ('`' :: s3))))),
        { input := ' ' :: '_' :: (s1 ++ ('`' :: (s2 ++ ('`' :: (s3 ++ ['_']))))),
          index := s1.length + s2.length + s3.length + 5 })) ∧
    parse_suffix 50 { input := " _a_b_ x".data, index := 0 } =
      .ok (some "a_b", { input := " _a_b_ x".data, index := 6 }) ∧
    errMsg (parse_suffix 50 { input := " _ab\ncd_ ".data, index := 0 }) =
      some "failed to find end of _ suffixed text" ∧
    errMsg (parse_suffix 50 { input := " _ab".data, index := 0 }) =
      some "failed to find end of _ suffixed text" := by
  refine ⟨?_, rfl, rfl, rfl⟩

  intro s1 s2 s3 m h1 h2 h3
  have htk : take_str " _".data
      { input := ' ' :: '_' :: (s1 ++ ('`' :: (s2 ++ ('`' :: (s3 ++ ['_']))))),
        index := 0 } =
      (true,
       { input := ' ' :: '_' :: (s1 ++ ('`' :: (s2 ++ ('`' :: (s3 ++ ['_']))))),
         index := 2 }) := by
    simp [take_str, Parser.rest, Parser.adv, List.isPrefixOf]
  have hq0 : (Parser.mk
      (' ' :: '_' :: (s1 ++ ('`' :: (s2 ++ ('`' :: (s3 ++ ['_'])))))) 2).rest
      = s1 ++ ('`' :: (s2 ++ ('`' :: (s3 ++ ['_'])))) := by
    simp [Parser.rest]
  have hloop : suffixLoop (s1.length + s2.length + s3.length + 3 + m)
      (Parser.mk
        (' ' :: '_' :: (s1 ++ ('`' :: (s2 ++ ('`' :: (s3 ++ ['_'])))))) 2)
      false =
      .ok (Parser.mk
        (' ' :: '_' :: (s1 ++ ('`' :: (s2 ++ ('`' :: (s3 ++ ['_']))))))
        (s1.length + s2.length + s3.length + 5)) := by
    rw [show s1.length + s2.length + s3.length + 3 + m =
        s1.length + (s2.length + s3.length + 3 + m) from by omega]
    rw [suffixLoop_skip s1 _ _ false _ hq0
      (fun c hc => ⟨(h1 c hc).1, (h1 c hc).2.1,
        fun h' => absurd h' (h1 c hc).2.2⟩)]
    have hq1 : ((Parser.mk
        (' ' :: '_' :: (s1 ++ ('`' :: (s2 ++ ('`' :: (s3 ++ ['_'])))))) 2).adv
        s1.length).rest = '`' :: (s2 ++ ('`' :: (s3 ++ ['_']))) := by
      rw [Parser_rest_adv, hq0, List.drop_left]
    rw [show s2.length + s3.length + 3 + m =
        (s2.length + s3.length + 2 + m) + 1 from by omega]
    rw [suffixLoop_backtick _ _ _ _ hq1, Parser_adv_adv, Bool.not_false]
    have hq2 : ((Parser.mk
        (' ' :: '_' :: (s1 ++ ('`' :: (s2 ++ ('`' :: (s3 ++ ['_'])))))) 2).adv
        (s1.length + 1)).rest = s2 ++ ('`' :: (s3 ++ ['_'])) := by
      rw [Parser_rest_adv, hq0, drop_len_add]
      simp
    rw [show s2.length + s3.length + 2 + m =
        s2.length + (s3.length + 2 + m) from by omega]
    rw [suffixLoop_skip s2 _ _ true _ hq2
      (fun c hc => ⟨(h2 c hc).1, (h2 c hc).2, fun _ => rfl⟩)]
    rw [Parser_adv_adv]
    have hq3 : ((Parser.mk
        (' ' :: '_' :: (s1 ++ ('`' :: (s2 ++ ('`' :: (s3 ++ ['_'])))))) 2).adv
        (s1.length + 1 + s2.length)).rest = '`' :: (s3 ++ ['_']) := by
      rw [Parser_rest_adv, hq0,
        show s1.length + 1 + s2.length = s1.length + (1 + s2.length) from
          by omega,
        drop_len_add,
        show (1 : Nat) + s2.length = s2.length + 1 from by omega,
        List.drop_succ_cons, List.drop_left]
    rw [show s3.length + 2 + m = (s3.length + 1 + m) + 1 from by omega]
    rw [suffixLoop_backtick _ _ _ _ hq3, Parser_adv_adv, Bool.not_true]
    have hq4 : ((Parser.mk
        (' ' :: '_' :: (s1 ++ ('`' :: (s2 ++ ('`' :: (s3 ++ ['_'])))))) 2).adv
        (s1.length + 1 + s2.length + 1)).rest = s3 ++ ['_'] := by
      rw [Parser_rest_adv, hq0,
        show s1.length + 1 + s2.length + 1 =
          s1.length + (1 + (s2.length + 1)) from by omega,
        drop_len_add,
        show (1 : Nat) + (s2.length + 1) = (s2.length + 1) + 1 from by omega,
        List.drop_succ_cons, drop_len_add]
      simp
    rw [show s3.length + 1 + m = s3.length + (1 + m) from by omega]
    rw [suffixLoop_skip s3 _ _ false _ hq4
      (fun c hc => ⟨(h3 c hc).1, (h3 c hc).2.1,
        fun h' => absurd h' (h3 c hc).2.2⟩)]
    rw [Parser_adv_adv]
    have hq5 : ((Parser.mk
        (' ' :: '_' :: (s1 ++ ('`' :: (s2 ++ ('`' :: (s3 ++ ['_'])))))) 2).adv
        (s1.length + 1 + s2.length + 1 + s3.length)).rest = ['_'] := by
      rw [Parser_rest_adv, hq0,
        show s1.length + 1 + s2.length + 1 + s3.length =
          s1.length + (1 + (s2.length + (1 + s3.length))) from by omega,
        drop_len_add,
        show (1 : Nat) + (s2.length + (1 + s3.length)) =
          (s2.length + (1 + s3.length)) + 1 from by omega,
        List.drop_succ_cons, drop_len_add,
        show (1 : Nat) + s3.length = s3.length + 1 from by omega,
        List.drop_succ_cons, List.drop_left]
    rw [show (1 : Nat) + m = m + 1 from by omega]
    rw [suffixLoop_stop m _ [] hq5 (Or.inl rfl), Parser_adv_adv]
    congr 1
    simp [Parser.adv]
    omega
  rw [parse_suffix]
  rw [htk]
  dsimp only
  rw [hloop]
  dsimp only
  have hdrop2 :
      (' ' :: '_' :: (s1 ++ ('`' :: (s2 ++ ('`' :: (s3 ++ ['_'])))))).drop 2 =
      (s1 ++ ('`' :: (s2 ++ ('`' :: s3)))) ++ ['_'] := by simp
  rw [hdrop2]
  rw [show s1.length + s2.length + s3.length + 5 - 1 - 2 =
      (s1 ++ ('`' :: (s2 ++ ('`' :: s3)))).length from by simp; omega]
  rw [List.take_left]
  simp

/-- C9 witness: the scan law at the concrete annotation `a\`x_y\`b` —
the quoted middle contains an underscore that does not terminate. -/
theorem c9_suffix_scan_witness :
    parse_suffix (1 + 3 + 1 + 3 + 0)
      { input := ' ' :: '_' ::
          (['a'] ++ ('`' :: (['x', '_', 'y'] ++ ('`' :: (['b'] ++ ['_']))))),
        index := 0 } =
      .ok (some (String.mk
          (['a'] ++ ('`' :: (['x', '_', 'y'] ++ ('`' :: ['b']))))),
        { input := ' ' :: '_' ::
            (['a'] ++ ('`' :: (['x', '_', 'y'] ++ ('`' :: (['b'] ++ ['_']))))),
          index := 1 + 3 + 1 + 5 }) :=
  c9_suffix_scan.1 ['a'] ['x', '_', 'y'] ['b'] 0
    (by decide) (by decide) (by decide)

/-- The first element surviving `dropWhile` fails the predicate. -/
theorem dropWhile_head_not (p : Char → Bool) :
    ∀ (l : List Char) c t, l.dropWhile p = c :: t → p c = false := by
  intro l
  induction l with
  | nil => intro c t h; simp at h
  | cons a l ih =>
    intro c t h
    by_cases hpa : p a = true
    · rw [List.dropWhile_cons_of_pos hpa] at h
      exact ih c t h
    · rw [List.dropWhile_cons_of_neg hpa] at h
      injection h with h1 h2
      subst h1
      simpa using hpa

/-- Dropping the length of the consumed run leaves the unconsumed rest. -/
theorem drop_takeWhile_len (p : Char → Bool) :
    ∀ (l : List Char), l.drop (l.takeWhile p).length = l.dropWhile p := by
  intro l
  induction l with
  | nil => rfl
  | cons a l ih =>
    cases hpa : p a <;>
      simp [List.takeWhile_cons, List.dropWhile_cons, hpa, ih]

/-- On input made only of spaces and newlines, after skipping spaces no
name character can be consumed. -/
theorem takeWhile_alnum_nil (l : List Char)
    (h : ∀ c ∈ l, c = ' ' ∨ c = '\n') :
    (l.dropWhile (fun c => decide (c = ' '))).takeWhile
      (fun c => c.isAlphanum || decide (c = '_')) = [] := by
  cases hd : l.dropWhile (fun c => decide (c = ' ')) with
  | nil => simp
  | cons c t =>
    have hmem : c ∈ l :=
      (List.dropWhile_sublist (fun c => decide (c = ' '))).subset
        (hd ▸ List.mem_cons_self c t)
    have hns : ¬ c = ' ' := by
      have := dropWhile_head_not _ l c t hd
      simpa using this
    have hcn : c = '\n' := by
      rcases h c hmem with h1 | h1
      · exact absurd h1 hns
      · exact h1
    subst hcn
    simp [List.takeWhile_cons]

/-- A chunk containing only spaces and newlines always fails with
"expected production name", leaving the registry untouched. -/
theorem parse_grammar_blank_input (n : Nat) (s : String) (g : Grammar)
    (cat path : String) (hall : ∀ c ∈ s.data, c = ' ' ∨ c = '\n') :
    errMsg (parse_grammar (n + 1) s g cat path).1 =
      some "expected production name" ∧
    (parse_grammar (n + 1) s g cat path).2 = g := by
  have hrest0 : (Parser.mk s.data 0).rest = s.data := by
    simp [Parser.rest]
  have hroot : take_str "@root".data (Parser.mk s.data 0) =
      (false, Parser.mk s.data 0) := by
    unfold take_str
    rw [if_neg]
    intro hpre
    rw [hrest0] at hpre
    rw [show "@root".data = '@' :: "root".data from rfl] at hpre
    cases hsd : s.data with
    | nil => rw [hsd] at hpre; simp [List.isPrefixOf] at hpre
    | cons c t =>
      rw [hsd] at hpre
      rcases hall c (by rw [hsd]; simp) with h1 | h1 <;>
        (subst h1; simp [List.isPrefixOf] at hpre)
  have hrest : ((space0 (Parser.mk s.data 0)).2).rest =
      s.data.dropWhile (fun c => decide (c = ' ')) := by
    simp [space0, take_while, Parser.adv, Parser.rest, drop_takeWhile_len]
  have hname : parse_name ((space0 (Parser.mk s.data 0)).2) = none := by
    unfold parse_name
    have h1 : (take_while (fun c => c.isAlphanum || decide (c = '_'))
        ((space0 (Parser.mk s.data 0)).2)).1 = [] := by
      simp only [take_while]
      rw [hrest]
      exact takeWhile_alnum_nil s.data hall
    simp only [h1]
    simp
  have hprod : parse_production n (Parser.mk s.data 0) cat path =
      .error (((space0 (Parser.mk s.data 0)).2).mkError
        "expected production name") := by
    unfold parse_production parse_is_root
    rw [hroot]
    dsimp only
    rw [hname]
  have hmain : parse_grammar (n + 1) s g cat path =
      (.error (((space0 (Parser.mk s.data 0)).2).mkError
        "expected production name"), g) := by
    rw [show parse_grammar (n + 1) s g cat path =
        parse_grammar_loop (n + 1) (Parser.mk s.data 0) g cat path from rfl]
    rw [parse_grammar_loop]
    rw [hprod]
  rw [hmain]
  exact ⟨rfl, rfl⟩

/-- The production loop only returns success after registering at least
one production (the declaration order strictly grows). -/
theorem parse_grammar_loop_grows : ∀ (n : Nat) (p : Parser) (g : Grammar)
    (cat path : String) (g' : Grammar),
    parse_grammar_loop n p g cat path = (.ok (), g') →
    g.name_order.length < g'.name_order.length := by
  intro n
  induction n with
  | zero =>
    intro p g cat path g' h
    simp [parse_grammar_loop] at h
  | succ m ih =>
    intro p g cat path g' h
    simp only [parse_grammar_loop] at h
    split at h
    · simp at h
    · next prod p1 hp =>
      split at h
      · simp at h
      · split at h
        · simp only [Prod.mk.injEq] at h
          rw [← h.2]
          simp
        · have := ih _ _ _ _ _ h
          simp at this
          omega

/-- C10: a chunk with no production — the empty string or text made only
of spaces and newlines — never parses: `parse_grammar` fails with
"expected production name" and leaves the registry untouched; and every
successful call registers at least one production (the declaration order
strictly grows). -/
theorem c10_no_production :
    (∀ (n : Nat) (s : String) (g : Grammar) (cat path : String),
      (∀ c ∈ s.data, c = ' ' ∨ c = '\n') →
      errMsg (parse_grammar (n + 1) s g cat path).1 =
        some "expected production name" ∧
      (parse_grammar (n + 1) s g cat path).2 = g) ∧
    (∀ (fuel : Nat) (s : String) (g : Grammar) (cat path : String)
      (g' : Grammar),
      parse_grammar fuel s g cat path = (.ok (), g') →
      g.name_order.length < g'.name_order.length) :=
  ⟨fun n s g cat path hall => parse_grammar_blank_input n s g cat path hall,
   fun fuel s g cat path g' h =>
     parse_grammar_loop_grows fuel (Parser.mk s.data 0) g cat path g' h⟩

/-- C10 witness: the blank-input law at `" \n"` (empty registry
preserved) and the growth law at the successful parse of `a -> \`x\``. -/
theorem c10_no_production_witness :
    (errMsg (parse_grammar 5 " \n" emptyGrammar "c" "p").1 =
      some "expected production name" ∧
    (parse_grammar 5 " \n" emptyGrammar "c" "p").2 = emptyGrammar) ∧
    emptyGrammar.name_order.length <
      (Grammar.mk ["a"] [("a", prodX)]).name_order.length :=
  ⟨c10_no_production.1 4 " \n" emptyGrammar "c" "p" (by decide),
   c10_no_production.2 100 "a -> `x`" emptyGrammar "c" "p"
     (Grammar.mk ["a"] [("a", prodX)]) rfl⟩

/-- Splitting on newlines always yields at least one piece. -/
theorem splitNl_ne_nil : ∀ (s : List Char), splitNl s ≠ [] := by
  intro s
  cases s with
  | nil => simp [splitNl]
  | cons c t =>
    simp only [splitNl]
    split
    · simp
    · split <;> simp

/-- A newline-free text is a single piece. -/
theorem splitNl_no_nl : ∀ (s : List Char), '\n' ∉ s → splitNl s = [s] := by
  intro s
  induction s with
  | nil => intro h; rfl
  | cons c t ih =>
    intro h
    have hc : ¬ c = '\n' := by intro hc; exact h (by simp [hc])
    have ht := ih (by intro hm; exact h (by simp [hm]))
    simp only [splitNl, if_neg hc, ht]

/-- Splitting separates the newline-free first line from the rest. -/
theorem splitNl_append : ∀ (l t : List Char), '\n' ∉ l →
    splitNl (l ++ '\n' :: t) = l :: splitNl t := by
  intro l
  induction l with
  | nil => intro t h; simp [splitNl]
  | cons c l' ih =>
    intro t h
    have hc : ¬ c = '\n' := by intro hc; exact h (by simp [hc])
    have ht := ih t (by intro hm; exact h (by simp [hm]))
    simp only [List.cons_append, splitNl, if_neg hc]
    rw [show l'.append ('\n' :: t) = l' ++ '\n' :: t from rfl, ht]

/-- The last element of a nonempty-tailed cons is the tail's last. -/
theorem getLast?_cons_ne_nil (a : List Char) (P : List (List Char))
    (h : P ≠ []) : (a :: P).getLast? = P.getLast? := by
  cases P with
  | nil => exact absurd rfl h
  | cons b Q => exact List.getLast?_cons_cons

/-- Stripping a trailing carriage return is the identity without one. -/
theorem stripCR_no_cr (l : List Char) (h : '\r' ∉ l) : stripCR l = l := by
  unfold stripCR
  rw [if_neg]
  intro hg
  obtain ⟨hne, heq⟩ := List.mem_getLast?_eq_getLast
    (show '\r' ∈ l.getLast? from hg ▸ rfl)
  exact h (heq ▸ List.getLast_mem hne)

/-- A nonempty newline-free text is its own single line. -/
theorem rustLines_no_nl (s : List Char) (hne : s ≠ []) (h : '\n' ∉ s) :
    rustLines s = [s] := by
  unfold rustLines
  rw [splitNl_no_nl s h]
  dsimp only
  cases hs : s with
  | nil => exact absurd hs hne
  | cons c t => simp

/-- The lines of a text starting with a newline-free line are that line followed by the lines of the rest. -/
theorem rustLines_cons (l t : List Char) (hnl : '\n' ∉ l)
    (hcr : '\r' ∉ l) :
    rustLines (l ++ '\n' :: t) = l :: rustLines t := by
  unfold rustLines
  rw [splitNl_append l t hnl]
  dsimp only
  have hP := splitNl_ne_nil t
  rw [List.dropLast_cons_of_ne_nil hP, getLast?_cons_ne_nil l _ hP]
  simp only [List.map_cons, stripCR_no_cr l hcr]
  split
  · rfl
  · simp
  · next hnone => exact absurd (List.getLast?_eq_none_iff.mp hnone) hP

/-- The scanning loop started at a nonzero line start and line number behaves like the loop restarted from zero with the offset shifted and the line number bumped. -/
theorem tpLoop_shift : ∀ (L : List (List Char)) (i ls ln : Nat), ls ≤ i →
    tpLoop L i ls ln =
      ((tpLoop L (i - ls) 0 0).1, (tpLoop L (i - ls) 0 0).2.1 + ln,
       (tpLoop L (i - ls) 0 0).2.2) := by
  intro L
  induction L with
  | nil =>
    intro i ls ln h
    simp [tpLoop]
    omega
  | cons line rest ih =>
    intro i ls ln h
    simp only [tpLoop]
    by_cases hc : i ≤ ls + line.length
    · rw [if_pos ⟨h, hc⟩, if_pos ⟨Nat.zero_le _, by omega⟩]
      simp only [Prod.mk.injEq, true_and, and_true]
      omega
    · rw [if_neg (fun hx => hc hx.2), if_neg (fun hx => absurd hx.2 (by omega))]
      rw [ih i (ls + line.length + 1) (ln + 1) (by omega)]
      rw [ih (i - ls) (0 + line.length + 1) (0 + 1) (by omega)]
      rw [show i - ls - (0 + line.length + 1) = i - (ls + line.length + 1)
        from by omega]
      simp only [Prod.mk.injEq, true_and, and_true]
      omega

/-- A newline is a newline. -/
theorem notNl_nl : notNl '\n' = false := by decide

/-- A newline-free run is taken whole. -/
theorem takeWhile_notNl_all (l : List Char) (h : '\n' ∉ l) :
    l.takeWhile notNl = l := by
  induction l with
  | nil => rfl
  | cons c t ih =>
    have hc : notNl c = true := by
      simp [notNl]
      intro hc
      exact h (by simp [hc])
    rw [List.takeWhile_cons_of_pos hc, ih (fun hm => h (by simp [hm]))]

/-- Taking up to a newline never crosses it. -/
theorem takeWhile_notNl_append (A B : List Char) :
    (A ++ '\n' :: B).takeWhile notNl = A.takeWhile notNl := by
  induction A with
  | nil => simp [List.takeWhile_cons, notNl_nl]
  | cons a A ih =>
    cases ha : notNl a with
    | true =>
      rw [List.cons_append, List.takeWhile_cons_of_pos ha,
        List.takeWhile_cons_of_pos ha, ih]
    | false =>
      rw [List.cons_append, List.takeWhile_cons_of_neg (by simp [ha]),
        List.takeWhile_cons_of_neg (by simp [ha])]

/-- Taking past a prefix continues inside the tail. -/
theorem take_len_add (l₁ l₂ : List Char) (k : Nat) :
    (l₁ ++ l₂).take (l₁.length + k) = l₁ ++ l₂.take k := by
  induction l₁ with
  | nil => simp
  | cons a l ih => simp [List.take_cons, ih, Nat.succ_add]

/-- A text containing a newline splits at its first newline. -/
theorem first_nl_split : ∀ (s : List Char), '\n' ∈ s →
    ∃ l t, s = l ++ '\n' :: t ∧ '\n' ∉ l := by
  intro s
  induction s with
  | nil => intro h; simp at h
  | cons c u ih =>
    intro h
    by_cases hc : c = '\n'
    · exact ⟨[], u, by simp [hc], by simp⟩
    · have hm : '\n' ∈ u := by
        rcases List.mem_cons.mp h with h1 | h1
        · exact absurd h1.symm hc
        · exact h1
      obtain ⟨l, t, heq, hnl⟩ := ih hm
      exact ⟨c :: l, t, by simp [heq], by
        intro hmem
        rcases List.mem_cons.mp hmem with h1 | h1
        · exact hc h1.symm
        · exact hnl h1⟩

/-- A taken run is no longer than the list. -/
theorem length_takeWhile_le2 (p : Char → Bool) :
    ∀ l : List Char, (l.takeWhile p).length ≤ l.length := by
  intro l
  induction l with
  | nil => simp
  | cons a t ih =>
    cases h : p a <;> simp [List.takeWhile_cons, h] <;> omega

/-- The translate law for a newline-free text: one line, column offset + 1. -/
theorem c2_case_nonl (s : List Char) (hne : s ≠ []) (hnl : '\n' ∉ s)
    (i : Nat) (hi : i ≤ s.length) :
    translate_position s i =
      (String.mk (manualLine s i), manualNl s i + 1,
       if i = s.length ∧ s.getLast? = some '\n' then 0
       else i - manualLineStart s i + 1) := by
  have htake_mem : '\n' ∉ s.take i := fun hm => hnl (List.take_subset i s hm)
  have hcount : manualNl s i = 0 := List.count_eq_zero.mpr htake_mem
  have hrun : ((s.take i).reverse.takeWhile notNl).length = i := by
    rw [takeWhile_notNl_all _ (by simpa using htake_mem), List.length_reverse,
      List.length_take]
    omega
  have hmls : manualLineStart s i = 0 := by
    unfold manualLineStart
    rw [hrun]
    omega
  have hline : manualLine s i = s := by
    unfold manualLine
    rw [hmls, List.drop_zero, takeWhile_notNl_all s hnl]
  have hcond : ¬ (i = s.length ∧ s.getLast? = some '\n') := by
    intro hx
    obtain ⟨hy, heq⟩ := List.mem_getLast?_eq_getLast
      (show '\n' ∈ s.getLast? from hx.2 ▸ rfl)
    exact hnl (heq ▸ List.getLast_mem hy)
  rw [hcount, hmls, hline, if_neg hcond]
  unfold translate_position
  rw [if_neg hne, Nat.min_eq_left hi, rustLines_no_nl s hne hnl]
  simp only [tpLoop]
  rw [if_pos ⟨Nat.zero_le _, by omega⟩]

/-- The translate law for an offset inside (or at the end of) the first line. -/
theorem c2_case_firstline (l t : List Char) (hnl : '\n' ∉ l)
    (hcrl : '\r' ∉ l) (i : Nat) (hle : i ≤ l.length) :
    translate_position (l ++ '\n' :: t) i =
      (String.mk (manualLine (l ++ '\n' :: t) i),
       manualNl (l ++ '\n' :: t) i + 1,
       if i = (l ++ '\n' :: t).length ∧
           (l ++ '\n' :: t).getLast? = some '\n' then 0
       else i - manualLineStart (l ++ '\n' :: t) i + 1) := by
  have hslen : (l ++ '\n' :: t).length = l.length + 1 + t.length := by
    simp
    omega
  have hne : (l ++ '\n' :: t) ≠ [] := by
    cases l <;> simp
  have htake : (l ++ '\n' :: t).take i = l.take i :=
    List.take_append_of_le_length hle
  have htake_mem : '\n' ∉ (l ++ '\n' :: t).take i := by
    rw [htake]
    exact fun hm => hnl (List.take_subset i l hm)
  have hcount : manualNl (l ++ '\n' :: t) i = 0 :=
    List.count_eq_zero.mpr htake_mem
  have hrun : (((l ++ '\n' :: t).take i).reverse.takeWhile notNl).length
      = i := by
    rw [takeWhile_notNl_all _ (by simpa using htake_mem),
      List.length_reverse, htake, List.length_take]
    omega
  have hmls : manualLineStart (l ++ '\n' :: t) i = 0 := by
    unfold manualLineStart
    rw [hrun]
    omega
  have hline : manualLine (l ++ '\n' :: t) i = l := by
    unfold manualLine
    rw [hmls, List.drop_zero, takeWhile_notNl_append, takeWhile_notNl_all l hnl]
  have hcond : ¬ (i = (l ++ '\n' :: t).length ∧
      (l ++ '\n' :: t).getLast? = some '\n') := by
    intro hx
    obtain ⟨h1, _⟩ := hx
    omega
  rw [hcount, hmls, hline, if_neg hcond]
  unfold translate_position
  rw [if_neg hne, Nat.min_eq_left (by omega), rustLines_cons l t hnl hcrl]
  simp only [tpLoop]
  rw [if_pos ⟨Nat.zero_le _, by omega⟩]

/-- The translate law for the offset one past the final newline: the synthetic empty final line, column 0. -/
theorem c2_case_last (l : List Char) (hnl : '\n' ∉ l) (hcrl : '\r' ∉ l) :
    translate_position (l ++ ['\n']) (l.length + 1) =
      (String.mk (manualLine (l ++ ['\n']) (l.length + 1)),
       manualNl (l ++ ['\n']) (l.length + 1) + 1,
       if l.length + 1 = (l ++ ['\n']).length ∧
           (l ++ ['\n']).getLast? = some '\n' then 0
       else (l.length + 1) - manualLineStart (l ++ ['\n']) (l.length + 1) + 1)
    := by
  have hslen : (l ++ ['\n']).length = l.length + 1 := by simp
  have hne : (l ++ ['\n']) ≠ [] := by cases l <;> simp
  have htake : (l ++ ['\n']).take (l.length + 1) = l ++ ['\n'] := by
    rw [← hslen, List.take_length]
  have hcount : manualNl (l ++ ['\n']) (l.length + 1) = 1 := by
    unfold manualNl
    rw [htake, List.count_append, List.count_eq_zero.mpr hnl]
    simp
  have hcond : (l.length + 1 = (l ++ ['\n']).length ∧
      (l ++ ['\n']).getLast? = some '\n') := by
    refine ⟨by omega, ?_⟩
    rw [show (l ++ ['\n'] : List Char) = l ++ '\n' :: [] from rfl,
      List.getLast?_append_cons]
    rfl
  have hrun : (((l ++ ['\n']).take (l.length + 1)).reverse.takeWhile notNl)
      = [] := by
    rw [htake, List.reverse_append,
      show (['\n'] : List Char).reverse = ['\n'] from rfl,
      List.singleton_append,
      List.takeWhile_cons_of_neg (by decide)]
  have hmls : manualLineStart (l ++ ['\n']) (l.length + 1) = l.length + 1 := by
    unfold manualLineStart
    rw [hrun]
    simp
  have hline : manualLine (l ++ ['\n']) (l.length + 1) = [] := by
    unfold manualLine
    rw [hmls, ← hslen, List.drop_length]
    rfl
  rw [hcount, hline, if_pos hcond]
  unfold translate_position
  rw [if_neg hne, Nat.min_eq_left (by omega),
    show (l ++ ['\n'] : List Char) = l ++ '\n' :: [] from rfl,
    rustLines_cons l [] hnl hcrl,
    show rustLines [] = [] from rfl]
  simp only [tpLoop]
  rw [if_neg (fun hx => absurd hx.2 (by omega))]

/-- The translate law transfers across the first line: the position in the tail determines the result, with the line number bumped. -/
theorem c2_case_rec (l t : List Char) (hnl : '\n' ∉ l) (hcrl : '\r' ∉ l)
    (ht : t ≠ []) (i : Nat) (hgt : l.length < i)
    (hi : i ≤ (l ++ '\n' :: t).length)
    (IH : translate_position t (i - l.length - 1) =
      (String.mk (manualLine t (i - l.length - 1)),
       manualNl t (i - l.length - 1) + 1,
       if i - l.length - 1 = t.length ∧ t.getLast? = some '\n' then 0
       else (i - l.length - 1) - manualLineStart t (i - l.length - 1) + 1)) :
    translate_position (l ++ '\n' :: t) i =
      (String.mk (manualLine (l ++ '\n' :: t) i),
       manualNl (l ++ '\n' :: t) i + 1,
       if i = (l ++ '\n' :: t).length ∧
           (l ++ '\n' :: t).getLast? = some '\n' then 0
       else i - manualLineStart (l ++ '\n' :: t) i + 1) := by
  have hslen : (l ++ '\n' :: t).length = l.length + 1 + t.length := by
    simp
    omega
  have hne : (l ++ '\n' :: t) ≠ [] := by cases l <;> simp
  have hi' : i - l.length - 1 ≤ t.length := by omega
  unfold translate_position
  rw [if_neg hne, Nat.min_eq_left (by omega), rustLines_cons l t hnl hcrl]
  simp only [tpLoop]
  rw [if_neg (fun hx => absurd hx.2 (by omega))]
  rw [tpLoop_shift (rustLines t) i (0 + l.length + 1) (0 + 1) (by omega)]
  have hC : tpLoop (rustLines t) (i - (0 + l.length + 1)) 0 0
      = translate_position t (i - l.length - 1) := by
    unfold translate_position
    rw [if_neg ht, Nat.min_eq_left hi',
      show i - (0 + l.length + 1) = i - l.length - 1 from by omega]
  rw [hC, IH]
  dsimp only
  have htake : (l ++ '\n' :: t).take i
      = l ++ '\n' :: t.take (i - l.length - 1) := by
    have h2 : (l ++ '\n' :: t).take (l.length + (1 + (i - l.length - 1)))
        = l ++ '\n' :: t.take (i - l.length - 1) := by
      rw [take_len_add,
        show (1 : Nat) + (i - l.length - 1) = (i - l.length - 1) + 1 from
          by omega,
        List.take_succ_cons]
    rw [← h2]
    exact congrArg (fun n => (l ++ '\n' :: t).take n) (by omega)
  have hcount : manualNl (l ++ '\n' :: t) i
      = manualNl t (i - l.length - 1) + 1 := by
    unfold manualNl
    rw [htake, List.count_append, List.count_eq_zero.mpr hnl]
    simp [List.count_cons]
  have hrev : ((l ++ '\n' :: t).take i).reverse
      = (t.take (i - l.length - 1)).reverse ++ '\n' :: l.reverse := by
    rw [htake, List.reverse_append,
      show ('\n' :: t.take (i - l.length - 1)).reverse
        = (t.take (i - l.length - 1)).reverse ++ ['\n'] from by simp,
      List.append_assoc, List.singleton_append]
  have hrun : (((l ++ '\n' :: t).take i).reverse.takeWhile notNl)
      = ((t.take (i - l.length - 1)).reverse.takeWhile notNl) := by
    rw [hrev, takeWhile_notNl_append]
  have hrunle : ((t.take (i - l.length - 1)).reverse.takeWhile notNl).length
      ≤ i - l.length - 1 := by
    have h1 := length_takeWhile_le2 notNl (t.take (i - l.length - 1)).reverse
    rw [List.length_reverse, List.length_take] at h1
    omega
  have hmls : manualLineStart (l ++ '\n' :: t) i
      = l.length + 1 + manualLineStart t (i - l.length - 1) := by
    unfold manualLineStart
    rw [hrun]
    omega
  have hline : manualLine (l ++ '\n' :: t) i
      = manualLine t (i - l.length - 1) := by
    unfold manualLine
    rw [hmls,
      show l.length + 1 + manualLineStart t (i - l.length - 1)
        = l.length + (1 + manualLineStart t (i - l.length - 1)) from by omega,
      drop_len_add,
      show (1 : Nat) + manualLineStart t (i - l.length - 1)
        = manualLineStart t (i - l.length - 1) + 1 from by omega,
      List.drop_succ_cons]
  have hlast : (l ++ '\n' :: t).getLast? = t.getLast? := by
    rw [List.getLast?_append_cons]
    cases t with
    | nil => exact absurd rfl ht
    | cons c u => exact List.getLast?_cons_cons
  have hcondiff : (i = (l ++ '\n' :: t).length ∧
      (l ++ '\n' :: t).getLast? = some '\n')
      ↔ (i - l.length - 1 = t.length ∧ t.getLast? = some '\n') := by
    rw [hlast]
    constructor
    · intro hx; exact ⟨by omega, hx.2⟩
    · intro hx; exact ⟨by omega, hx.2⟩
  rw [hcount, hline, hmls]
  by_cases hcond : i - l.length - 1 = t.length ∧ t.getLast? = some '\n'
  · rw [if_pos hcond, if_pos (hcondiff.mpr hcond)]
  · rw [if_neg hcond, if_neg (fun hx => hcond (hcondiff.mp hx))]
    simp only [Prod.mk.injEq, true_and, and_true]
    try omega

/-- The full translate law, by induction on the text: for carriage-return-free nonempty text and any offset up to the length, the line is the manual line, the line number is one more than the newlines before the offset, and the column is offset minus line start plus one, except that the offset one past a final newline reports the synthetic final line with column 0. -/
theorem translate_position_manual : ∀ (N : Nat) (s : List Char),
    s.length ≤ N → '\r' ∉ s → s ≠ [] → ∀ i, i ≤ s.length →
    translate_position s i =
      (String.mk (manualLine s i), manualNl s i + 1,
       if i = s.length ∧ s.getLast? = some '\n' then 0
       else i - manualLineStart s i + 1) := by
  intro N
  induction N with
  | zero =>
    intro s hlen hcr hne i hi
    cases hs : s with
    | nil => exact absurd hs hne
    | cons c t => rw [hs] at hlen; simp at hlen
  | succ M ih =>
    intro s hlen hcr hne i hi
    by_cases hm : '\n' ∈ s
    · obtain ⟨l, t, rfl, hnl⟩ := first_nl_split s hm
      have hslen : (l ++ '\n' :: t).length = l.length + 1 + t.length := by
        simp
        omega
      have hcrl : '\r' ∉ l := fun hx => hcr (by simp [hx])
      have hcrt : '\r' ∉ t := fun hx => hcr (by simp [hx])
      by_cases hle : i ≤ l.length
      · exact c2_case_firstline l t hnl hcrl i hle
      · by_cases htnil : t = []
        · subst htnil
          have hieq : i = l.length + 1 := by
            rw [hslen] at hi
            simp only [List.length_nil] at hi
            omega
          rw [hieq]
          exact c2_case_last l hnl hcrl
        · have hIH := ih t (by rw [hslen] at hlen; omega) hcrt htnil
            (i - l.length - 1) (by rw [hslen] at hi; omega)
          exact c2_case_rec l t hnl hcrl htnil i (by omega) hi hIH
    · exact c2_case_nonl s hne hm i hi

/-- C2 counterexample: at the boundary offset one past the final newline
(text `"a\n"`, offset 2) the code returns column 0, while the claim's
1-based column (offset minus line-start plus 1) is 1. -/
theorem c2_counterexample :
    translate_position "a\n".data 2 = ("", 2, 0) ∧
    2 - manualLineStart "a\n".data 2 + 1 = 1 := by decide

/-- C2 amended: for every carriage-return-free non-empty text and every
offset from 0 through the text's length, `translate_position` returns the
line containing that offset (an offset on a line's newline belongs to that
line), a 1-based line number equal to one plus the number of newlines
before the offset, and a 1-based column equal to offset minus line-start
plus 1 — except that an offset one past a final newline belongs to a
synthetic empty final line reported with column 0, not 1. -/
theorem c2_translate_position_amended :
    ∀ (s : List Char), '\r' ∉ s → s ≠ [] → ∀ i, i ≤ s.length →
    translate_position s i =
      (String.mk (manualLine s i), manualNl s i + 1,
       if i = s.length ∧ s.getLast? = some '\n' then 0
       else i - manualLineStart s i + 1) :=
  fun s hcr hne i hi => translate_position_manual s.length s le_rfl hcr hne i hi

/-- C2 witness: the amended law applied at text `"ab\ncd"`, offset 4. -/
theorem c2_translate_position_amended_witness :
    translate_position "ab\ncd".data 4 =
      (String.mk (manualLine "ab\ncd".data 4), manualNl "ab\ncd".data 4 + 1,
       if 4 = "ab\ncd".data.length ∧ "ab\ncd".data.getLast? = some '\n' then 0
       else 4 - manualLineStart "ab\ncd".data 4 + 1) :=
  c2_translate_position_amended "ab\ncd".data (by decide) (by decide) 4 (by decide)

/-- C3: alternation is the lowest-precedence operator and sequencing
binds tighter — `a -> `x` | `y` `z`` registers an expression
`Alt [Terminal "x", Sequence [Terminal "y", Terminal "z"]]`. -/
theorem c3_alternation_lowest_precedence :
    parse_grammar 100 "a -> `x` | `y` `z`" emptyGrammar "c" "p" =
      (.ok (), Grammar.mk ["a"] [("a", Production.mk "a" "c"
        (.mk (.Alt [.mk (.Terminal "x") none none,
          .mk (.Sequence [.mk (.Terminal "y") none none,
            .mk (.Terminal "z") none none]) none none]) none none)
        "p" false)]) := rfl

end Ebnf
